import Mathlib

/-!
Formal model of the experience-replay training core of the RL-Project
repository (DDPG on Pendulum, `pendulum/ddpg_pendulum.ipynb`, and DQN on
Breakout, `Breakout/Untitled.ipynb`).

Numeric scalars are modelled as rationals.  Per-action-dimension vectors in
the continuous variant have dimension 1 in the code (`num_actions = 1`,
`mean = np.zeros(1)`), so the noise process and the policy are modelled on
scalars.  Random draws (`np.random.normal`, `np.random.choice`,
`random.sample`) are modelled by passing the drawn values in explicitly;
where a claim is about the distribution's support, the support is modelled
as a predicate on the possible drawn values.
-/

/-! ## Ornstein-Uhlenbeck exploration noise (`OUActionNoise`, pendulum cell 6) -/

/-- State of `OUActionNoise`.  `x_initial` is `Option` because the Python
constructor defaults it to `None`. -/
structure OUActionNoise where
  theta : ℚ
  mean : ℚ
  std_dev : ℚ
  dt : ℚ
  x_initial : Option ℚ
  x_prev : ℚ

/-- Method `OUActionNoise.reset`: `x_prev = x_initial` when configured, else
`np.zeros_like(mean)` (0 in the 1-dimensional model). -/
def OUActionNoise.reset (n : OUActionNoise) : OUActionNoise :=
  { n with
    x_prev :=
      match n.x_initial with
      | some x0 => x0
      | none => 0 }

/-- Constructor `OUActionNoise.__init__`: stores the parameters and calls `self.reset()`. -/
def OUActionNoise.mk_init (mean std_deviation theta dt : ℚ)
    (x_initial : Option ℚ) : OUActionNoise :=
  OUActionNoise.reset
    { theta := theta, mean := mean, std_dev := std_deviation, dt := dt,
      x_initial := x_initial, x_prev := 0 }

/-- Method `OUActionNoise.__call__`:
`x = x_prev + theta * (mean - x_prev) * dt + std_dev * np.sqrt(dt) * z`
with `z` the `np.random.normal` draw, then `x_prev = x`; returns `x`.
`sqrt_dt` stands for the precomputed scalar `np.sqrt(self.dt)` (kept as an
explicit parameter because the square root of a rational is irrational in
general); theorems that use it carry the hypothesis `sqrt_dt * sqrt_dt = dt`. -/
def OUActionNoise.call (n : OUActionNoise) (sqrt_dt z : ℚ) : ℚ × OUActionNoise :=
  let x := n.x_prev + n.theta * (n.mean - n.x_prev) * n.dt + n.std_dev * sqrt_dt * z
  (x, { n with x_prev := x })

/-- The `ou_noise` object of pendulum cell 14:
`OUActionNoise(mean=np.zeros(1), std_deviation=0.2*np.ones(1))`, with the
constructor defaults `theta=0.15`, `dt=1e-2`, `x_initial=None`. -/
def ou_noise_code : OUActionNoise :=
  OUActionNoise.mk_init 0 (1/5) (3/20) (1/100) none

/-- One episode's effect on the noise state in the pendulum training loop
(cell 16): every step calls `policy(...)`, which calls `noise_object()` once;
`zs` are the per-step standard-normal draws.  Nothing in the episode body
touches the noise state otherwise. -/
def ddpg_episode_noise (sqrt_dt : ℚ) (n : OUActionNoise) (zs : List ℚ) :
    OUActionNoise :=
  zs.foldl (fun st z => (st.call sqrt_dt z).2) n

/-- The noise state threaded through the whole training loop of pendulum
cell 16 (`for ep in range(total_episodes)`): episodes run one after the
other on the same `ou_noise` object, and the loop body contains no call to
`ou_noise.reset()`. -/
def ddpg_trainer_noise (sqrt_dt : ℚ) (n0 : OUActionNoise)
    (episodes : List (List ℚ)) : OUActionNoise :=
  episodes.foldl (ddpg_episode_noise sqrt_dt) n0

/-- Value of `x_prev` as it stands when episode `e` (0-based) is about to select its
first action: the state left by the first `e` episodes. -/
def ddpg_noise_at_episode_start (sqrt_dt : ℚ) (n0 : OUActionNoise)
    (episodes : List (List ℚ)) (e : Nat) : ℚ :=
  (ddpg_trainer_noise sqrt_dt n0 (episodes.take e)).x_prev

/-! ## Polyak target update (`update_target`, pendulum cell 8) -/

/-- Function `update_target(target, original, tau)` body, element-wise over the
weight lists:
`target_weights[i] = original_weights[i] * tau + target_weights[i] * (1 - tau)`. -/
def update_target (target original : List ℚ) (tau : ℚ) : List ℚ :=
  List.zipWith (fun t o => o * tau + t * (1 - tau)) target original

/-- Function `update_target` applied `n` times with the live (`original`) weights
held fixed, as happens across consecutive training steps. -/
def update_target_iter (target original : List ℚ) (tau : ℚ) : Nat → List ℚ
  | 0 => target
  | n + 1 => update_target (update_target_iter target original tau n) original tau

/-! ## Continuous policy (`policy`, pendulum cell 12) -/

/-- NumPy `np.clip(a, a_min, a_max)`. -/
def np_clip (a a_min a_max : ℚ) : ℚ :=
  min (max a a_min) a_max

/-- Function `policy(state, noise_object)` on the action scalar: adds the noise
sample to the actor output, then clips to the action bounds:
`legal_action = np.clip(sampled_actions + noise, lower_bound, upper_bound)`. -/
def policy (sampled_actions noise lower_bound upper_bound : ℚ) : ℚ :=
  np_clip (sampled_actions + noise) lower_bound upper_bound

/-! ## DQN learning step (`DQN.train`, Breakout cell 6) -/

/-- NumPy `np.amax` over a 1-row prediction: maximum of the action values.
(`np.amax` of an empty array raises; the junk value 0 for `[]` is never
relied upon — theorems assume a nonempty action set.) -/
def np_amax (l : List ℚ) : ℚ :=
  match l with
  | [] => 0
  | x :: xs => xs.foldl max x

/-- Bootstrap target of `DQN.train` for one transition:
`if not done: target_Q = reward + gamma * np.amax(target_network.predict(next_state))`
`else: target_Q = reward`. -/
def DQN.target_Q (gamma reward : ℚ) (done : Bool) (target_prediction : List ℚ) : ℚ :=
  if done = false then reward + gamma * np_amax target_prediction
  else reward

/-- The per-sample fitting target of `DQN.train`:
`Q_values = main_network.predict(state); Q_values[0][action] = target_Q`.
`Q_values` is the live network's own prediction row. -/
def DQN.fit_target (Q_values : List ℚ) (action : Nat) (target_Q : ℚ) : List ℚ :=
  Q_values.set action target_Q

/-! ## Theorems -/

/-- Claim C9: each `OUActionNoise.__call__` returns
`x_prev + theta*(mean - x_prev)*dt + std_dev*sqrt(dt)*z` for the fresh
standard-normal draw `z`, stores that value back into `x_prev` (leaving all
parameters unchanged), and thereby makes consecutive samples temporally
correlated: the second of two consecutive samples is computed from the
first sample as its `x_prev`. -/
theorem C9_ou_sample_formula (n : OUActionNoise) (sqrt_dt z z2 : ℚ)
    (hsqrt : sqrt_dt * sqrt_dt = n.dt) :
    (n.call sqrt_dt z).1
        = n.x_prev + n.theta * (n.mean - n.x_prev) * n.dt + n.std_dev * sqrt_dt * z
      ∧ (n.call sqrt_dt z).2.x_prev = (n.call sqrt_dt z).1
      ∧ (n.call sqrt_dt z).2.theta = n.theta
      ∧ (n.call sqrt_dt z).2.mean = n.mean
      ∧ (n.call sqrt_dt z).2.std_dev = n.std_dev
      ∧ (n.call sqrt_dt z).2.dt = n.dt
      ∧ (n.call sqrt_dt z).2.x_initial = n.x_initial
      ∧ ((n.call sqrt_dt z).2.call sqrt_dt z2).1
          = (n.call sqrt_dt z).1
            + n.theta * (n.mean - (n.call sqrt_dt z).1) * n.dt
            + n.std_dev * sqrt_dt * z2 := by
  refine ⟨rfl, rfl, rfl, rfl, rfl, rfl, rfl, ?_⟩
  simp [OUActionNoise.call]

/-- Witness for C9 at the code's own noise configuration
(`theta=0.15, mean=0, std_dev=0.2, dt=0.01`, so `sqrt_dt = 1/10` exactly),
with draws `z = 1`, `z2 = 2`. -/
theorem C9_ou_sample_formula_witness :
    (1/10 : ℚ) * (1/10) = ou_noise_code.dt
      ∧ (ou_noise_code.call (1/10) 1).1
          = ou_noise_code.x_prev
            + ou_noise_code.theta * (ou_noise_code.mean - ou_noise_code.x_prev)
              * ou_noise_code.dt
            + ou_noise_code.std_dev * (1/10) * 1 := by
  refine ⟨by norm_num [ou_noise_code, OUActionNoise.mk_init, OUActionNoise.reset], ?_⟩
  exact (C9_ou_sample_formula ou_noise_code (1/10) 1 2
    (by norm_num [ou_noise_code, OUActionNoise.mk_init, OUActionNoise.reset])).1

/-- Claim C7: the continuous policy clips strictly after adding the noise
sample to the actor output — the returned action is
`np.clip(sampled_actions + noise, lower_bound, upper_bound)` — so for every
actor output and every noise value the returned action lies within
`[lower_bound, upper_bound]` inclusive. -/
theorem C7_policy_clips_after_noise
    (sampled_actions noise lower_bound upper_bound : ℚ)
    (hb : lower_bound ≤ upper_bound) :
    policy sampled_actions noise lower_bound upper_bound
        = np_clip (sampled_actions + noise) lower_bound upper_bound
      ∧ lower_bound ≤ policy sampled_actions noise lower_bound upper_bound
      ∧ policy sampled_actions noise lower_bound upper_bound ≤ upper_bound := by
  refine ⟨rfl, ?_, ?_⟩
  · simp only [policy, np_clip, le_min_iff]
    exact ⟨le_max_right _ _, hb⟩
  · exact min_le_right _ _

/-- Witness for C7 at the Pendulum bounds `[-2, 2]` with an actor output of
`100` and a noise sample of `7`: the returned action is still in bounds. -/
theorem C7_policy_clips_after_noise_witness :
    (-2 : ℚ) ≤ 2
      ∧ (-2 : ℚ) ≤ policy 100 7 (-2) 2
      ∧ policy 100 7 (-2) 2 ≤ 2 := by
  have h := C7_policy_clips_after_noise 100 7 (-2) 2 (by norm_num)
  exact ⟨by norm_num, h.2.1, h.2.2⟩

/-! ### Helper lemmas about `np_amax` -/

lemma foldl_max_mem (x : ℚ) (xs : List ℚ) : xs.foldl max x ∈ x :: xs := by
  induction xs generalizing x with
  | nil => simp
  | cons y ys ih =>
    simp only [List.foldl_cons]
    rcases List.mem_cons.mp (ih (max x y)) with h1 | h2
    · rcases max_choice x y with hx | hy
      · rw [h1, hx]; exact List.mem_cons_self _ _
      · rw [h1, hy]; exact List.mem_cons_of_mem _ (List.mem_cons_self _ _)
    · exact List.mem_cons_of_mem _ (List.mem_cons_of_mem _ h2)

lemma le_foldl_max (x : ℚ) (xs : List ℚ) :
    x ≤ xs.foldl max x ∧ ∀ q ∈ xs, q ≤ xs.foldl max x := by
  induction xs generalizing x with
  | nil => simp
  | cons y ys ih =>
    simp only [List.foldl_cons]
    obtain ⟨h1, h2⟩ := ih (max x y)
    refine ⟨le_trans (le_max_left x y) h1, ?_⟩
    intro q hq
    rcases List.mem_cons.mp hq with hq1 | hq'
    · rw [hq1]
      exact le_trans (le_max_right x y) h1
    · exact h2 q hq'

lemma np_amax_spec (l : List ℚ) (hl : l ≠ []) :
    np_amax l ∈ l ∧ ∀ q ∈ l, q ≤ np_amax l := by
  cases l with
  | nil => exact absurd rfl hl
  | cons x xs =>
    refine ⟨foldl_max_mem x xs, ?_⟩
    intro q hq
    rcases List.mem_cons.mp hq with hq1 | hq'
    · rw [hq1]
      exact (le_foldl_max x xs).1
    · exact (le_foldl_max x xs).2 q hq'

/-- Claim C5: in `DQN.train`, for each sampled transition independently, a
terminal transition's bootstrap target is exactly `reward` — independent of
`gamma` and of the target network's prediction — while a non-terminal one's
is `reward + gamma * max_a target_network.predict(next_state)[a]`; and the
per-sample fitting vector is the live network's own prediction row with
only the taken action's component overwritten by the bootstrap target. -/
theorem C5_dqn_target_and_fit (gamma reward : ℚ) (done : Bool)
    (tpred Q_values : List ℚ) (action : Nat)
    (ha : action < Q_values.length) (hne : tpred ≠ []) :
    (done = true → ∀ (gamma' : ℚ) (tpred' : List ℚ),
        DQN.target_Q gamma' reward true tpred' = reward)
    ∧ (done = false →
        DQN.target_Q gamma reward false tpred = reward + gamma * np_amax tpred
        ∧ np_amax tpred ∈ tpred
        ∧ ∀ q ∈ tpred, q ≤ np_amax tpred)
    ∧ (DQN.fit_target Q_values action (DQN.target_Q gamma reward done tpred)).length
        = Q_values.length
    ∧ (DQN.fit_target Q_values action (DQN.target_Q gamma reward done tpred)).getD action 0
        = DQN.target_Q gamma reward done tpred
    ∧ (∀ a' : Nat, a' < Q_values.length → a' ≠ action →
        (DQN.fit_target Q_values action (DQN.target_Q gamma reward done tpred)).getD a' 0
          = Q_values.getD a' 0) := by
  refine ⟨?_, ?_, ?_, ?_, ?_⟩
  · intro _ gamma' tpred'
    simp [DQN.target_Q]
  · intro _
    exact ⟨by simp [DQN.target_Q], (np_amax_spec tpred hne).1, (np_amax_spec tpred hne).2⟩
  · exact List.length_set Q_values action _
  · have hb : action < (DQN.fit_target Q_values action
        (DQN.target_Q gamma reward done tpred)).length := by
      simpa [DQN.fit_target] using ha
    rw [List.getD_eq_getElem _ _ hb]
    exact List.getElem_set_self _
  · intro a' h1 h2
    have hb : a' < (DQN.fit_target Q_values action
        (DQN.target_Q gamma reward done tpred)).length := by
      simpa [DQN.fit_target] using h1
    rw [List.getD_eq_getElem _ _ hb, List.getD_eq_getElem _ _ h1]
    exact List.getElem_set_ne (Ne.symm h2) _

/-- Witness for C5: the spec's scenario — a terminal transition with
`reward = 1.0` gets the target `1.0` exactly, here with `gamma = 9/10` and
a target-network prediction of `[5]`; the fitted vector for `Q_values = [3, 4]`
and `action = 0` has component 0 overwritten and component 1 untouched. -/
theorem C5_dqn_target_and_fit_witness :
    0 < [(3 : ℚ), 4].length
    ∧ ([(5 : ℚ)] : List ℚ) ≠ []
    ∧ DQN.target_Q (9/10) 1 true [(5 : ℚ)] = 1
    ∧ (DQN.fit_target [(3 : ℚ), 4] 0 (DQN.target_Q (9/10) 1 true [(5 : ℚ)])).getD 0 0
        = DQN.target_Q (9/10) 1 true [(5 : ℚ)]
    ∧ (DQN.fit_target [(3 : ℚ), 4] 0 (DQN.target_Q (9/10) 1 true [(5 : ℚ)])).getD 1 0
        = ([(3 : ℚ), 4]).getD 1 0 := by
  have h := C5_dqn_target_and_fit (9/10) 1 true [(5 : ℚ)] [(3 : ℚ), 4] 0
    (by decide) (by decide)
  exact ⟨by decide, by decide, h.1 rfl (9/10) [(5 : ℚ)], h.2.2.2.1,
    h.2.2.2.2 1 (by decide) (by decide)⟩

/-! ### Helper lemmas about the Polyak update -/

lemma length_update_target (t o : List ℚ) (tau : ℚ) :
    (update_target t o tau).length = min t.length o.length := by
  simp [update_target]

lemma length_update_target_iter (t o : List ℚ) (tau : ℚ)
    (h : t.length = o.length) :
    ∀ n, (update_target_iter t o tau n).length = t.length := by
  intro n
  induction n with
  | zero => rfl
  | succ n ih =>
    simp [update_target_iter, length_update_target, ih, h]

lemma getD_update_target (t o : List ℚ) (tau : ℚ) (i : Nat)
    (ht : i < t.length) (ho : i < o.length) :
    (update_target t o tau).getD i 0 = o.getD i 0 * tau + t.getD i 0 * (1 - tau) := by
  have hb : i < (update_target t o tau).length := by
    rw [length_update_target]; omega
  rw [List.getD_eq_getElem _ _ hb, List.getD_eq_getElem _ _ ht,
    List.getD_eq_getElem _ _ ho]
  exact List.getElem_zipWith

lemma getD_update_target_iter (t o : List ℚ) (tau : ℚ)
    (h : t.length = o.length) (i : Nat) (hi : i < t.length) :
    ∀ n, (update_target_iter t o tau n).getD i 0
      = o.getD i 0 + (1 - tau) ^ n * (t.getD i 0 - o.getD i 0) := by
  intro n
  induction n with
  | zero =>
    simp only [update_target_iter, pow_zero, one_mul]
    ring
  | succ n ih =>
    have hlen : (update_target_iter t o tau n).length = t.length :=
      length_update_target_iter t o tau h n
    have hstep := getD_update_target (update_target_iter t o tau n) o tau i
      (by omega) (by omega)
    simp only [update_target_iter, hstep, ih]
    ring

/-- Claim C6: the soft target update sets every target weight element-wise
to `original * tau + target * (1 - tau)` (i.e. `tau * live + (1-tau) * target`);
hence for `tau ∈ (0,1)` one update makes the element-wise distance to the
fixed live weights exactly `(1-tau)` times the previous distance, the `n`-th
iterate is `live + (1-tau)^n * (target₀ - live)`, and repeated application
drives every target weight to its live counterpart in the limit. -/
theorem C6_polyak_update (target original : List ℚ) (tau : ℚ)
    (h : target.length = original.length) (htau0 : 0 < tau) (htau1 : tau < 1) :
    (∀ i, i < target.length →
        (update_target target original tau).getD i 0
          = original.getD i 0 * tau + target.getD i 0 * (1 - tau))
    ∧ (∀ i, i < target.length →
        |(update_target target original tau).getD i 0 - original.getD i 0|
          = (1 - tau) * |target.getD i 0 - original.getD i 0|)
    ∧ (∀ n i, i < target.length →
        (update_target_iter target original tau n).getD i 0
          = original.getD i 0 + (1 - tau) ^ n * (target.getD i 0 - original.getD i 0))
    ∧ (∀ i, i < target.length → ∀ ε : ℚ, 0 < ε → ∃ N, ∀ n, N ≤ n →
        |(update_target_iter target original tau n).getD i 0 - original.getD i 0| < ε) := by
  have hconj1 : ∀ i, i < target.length →
      (update_target target original tau).getD i 0
        = original.getD i 0 * tau + target.getD i 0 * (1 - tau) := by
    intro i hi
    exact getD_update_target target original tau i hi (by omega)
  have hiter : ∀ n i, i < target.length →
      (update_target_iter target original tau n).getD i 0
        = original.getD i 0 + (1 - tau) ^ n * (target.getD i 0 - original.getD i 0) := by
    intro n i hi
    exact getD_update_target_iter target original tau h i hi n
  refine ⟨hconj1, ?_, hiter, ?_⟩
  · intro i hi
    rw [hconj1 i hi]
    have : original.getD i 0 * tau + target.getD i 0 * (1 - tau) - original.getD i 0
        = (1 - tau) * (target.getD i 0 - original.getD i 0) := by ring
    rw [this, abs_mul, abs_of_nonneg (by linarith : (0:ℚ) ≤ 1 - tau)]
  · intro i hi ε hε
    set c := |target.getD i 0 - original.getD i 0| with hc
    have hdist : ∀ n, |(update_target_iter target original tau n).getD i 0
        - original.getD i 0| = (1 - tau) ^ n * c := by
      intro n
      rw [hiter n i hi]
      have : original.getD i 0 + (1 - tau) ^ n * (target.getD i 0 - original.getD i 0)
          - original.getD i 0
          = (1 - tau) ^ n * (target.getD i 0 - original.getD i 0) := by ring
      rw [this, abs_mul, abs_of_nonneg (pow_nonneg (by linarith) n)]
    by_cases hc0 : c = 0
    · refine ⟨0, fun n _ => ?_⟩
      rw [hdist n, hc0, mul_zero]
      exact hε
    · have hcpos : 0 < c := lt_of_le_of_ne (abs_nonneg _) (Ne.symm hc0)
      obtain ⟨N, hN⟩ := exists_pow_lt_of_lt_one (div_pos hε hcpos)
        (by linarith : 1 - tau < 1)
      refine ⟨N, fun n hn => ?_⟩
      rw [hdist n]
      have h1 : (1 - tau) ^ n ≤ (1 - tau) ^ N :=
        pow_le_pow_of_le_one (by linarith) (by linarith) hn
      have h2 : (1 - tau) ^ n * c ≤ (1 - tau) ^ N * c :=
        mul_le_mul_of_nonneg_right h1 (le_of_lt hcpos)
      have h3 : (1 - tau) ^ N * c < (ε / c) * c :=
        mul_lt_mul_of_pos_right hN hcpos
      have h4 : (ε / c) * c = ε := div_mul_cancel₀ ε hc0
      linarith

/-- Witness for C6 at `target = [1]`, `original = [0]`, `tau = 1/2`
(one weight): the update formula instance and the limit statement both
hold at this concrete input. -/
theorem C6_polyak_update_witness :
    ([(1 : ℚ)]).length = ([(0 : ℚ)]).length
    ∧ (0 : ℚ) < 1/2
    ∧ (1/2 : ℚ) < 1
    ∧ (update_target [(1 : ℚ)] [(0 : ℚ)] (1/2)).getD 0 0
        = ([(0 : ℚ)]).getD 0 0 * (1/2) + ([(1 : ℚ)]).getD 0 0 * (1 - 1/2)
    ∧ (∀ ε : ℚ, 0 < ε → ∃ N, ∀ n, N ≤ n →
        |(update_target_iter [(1 : ℚ)] [(0 : ℚ)] (1/2) n).getD 0 0
          - ([(0 : ℚ)]).getD 0 0| < ε) := by
  have h := C6_polyak_update [(1 : ℚ)] [(0 : ℚ)] (1/2) rfl (by norm_num) (by norm_num)
  exact ⟨rfl, by norm_num, by norm_num, h.1 0 (by decide), h.2.2.2 0 (by decide)⟩

/-! ## Experience replay buffer (`Buffer`, pendulum cell 8) -/

/-- Constructor `Buffer.__init__` state: four preallocated per-field arrays of length
`buffer_capacity` (modelled as total maps from index to value) plus the
monotone insertion counter `buffer_counter`. -/
structure Buffer (σ α : Type) where
  buffer_capacity : Nat
  batch_size : Nat
  buffer_counter : Nat
  state_buffer : Nat → σ
  action_buffer : Nat → α
  reward_buffer : Nat → ℚ
  next_state_buffer : Nat → σ

/-- Constructor call `Buffer(buffer_capacity, batch_size)`: counter 0 and `np.zeros` arrays
(the zero rows are `s0`/`a0`/`0`). -/
def Buffer.init {σ α : Type} (buffer_capacity batch_size : Nat)
    (s0 : σ) (a0 : α) : Buffer σ α :=
  { buffer_capacity := buffer_capacity, batch_size := batch_size,
    buffer_counter := 0,
    state_buffer := fun _ => s0, action_buffer := fun _ => a0,
    reward_buffer := fun _ => 0, next_state_buffer := fun _ => s0 }

/-- Method `Buffer.record(obs_tuple)`: writes the four fields of the tuple at
`index = buffer_counter % buffer_capacity`, then increments the counter. -/
def Buffer.record {σ α : Type} (buf : Buffer σ α)
    (obs_tuple : σ × α × ℚ × σ) : Buffer σ α :=
  { buf with
    state_buffer := fun j =>
      if j = buf.buffer_counter % buf.buffer_capacity then obs_tuple.1
      else buf.state_buffer j,
    action_buffer := fun j =>
      if j = buf.buffer_counter % buf.buffer_capacity then obs_tuple.2.1
      else buf.action_buffer j,
    reward_buffer := fun j =>
      if j = buf.buffer_counter % buf.buffer_capacity then obs_tuple.2.2.1
      else buf.reward_buffer j,
    next_state_buffer := fun j =>
      if j = buf.buffer_counter % buf.buffer_capacity then obs_tuple.2.2.2
      else buf.next_state_buffer j,
    buffer_counter := buf.buffer_counter + 1 }

/-- A sequence of `record` calls, oldest first. -/
def Buffer.recordAll {σ α : Type} (buf : Buffer σ α)
    (ts : List (σ × α × ℚ × σ)) : Buffer σ α :=
  ts.foldl Buffer.record buf

/-- Value `record_range = min(buffer_counter, buffer_capacity)` as computed at the
top of `Buffer.learn`: the number of valid stored transitions. -/
def Buffer.record_range {σ α : Type} (buf : Buffer σ α) : Nat :=
  min buf.buffer_counter buf.buffer_capacity

/-- The transition stored at ring slot `j`: the `j`-th row of each of the
four parallel field arrays. -/
def Buffer.entry {σ α : Type} (buf : Buffer σ α) (j : Nat) : σ × α × ℚ × σ :=
  (buf.state_buffer j, buf.action_buffer j, buf.reward_buffer j,
    buf.next_state_buffer j)

/-! ## Bounded deque (`deque(maxlen=...)`, Breakout cell 6) -/

/-- Python `collections.deque(maxlen=m).append`: appends on the right and, when
the deque is full, discards the leftmost (oldest) element. -/
def deque_append {T : Type} (maxlen : Nat) (q : List T) (x : T) : List T :=
  (q ++ [x]).drop ((q ++ [x]).length - maxlen)

/-- The replay deque of the discrete variant after a sequence of
`store_transistion` calls starting from the empty deque. -/
def DQN.store_all {T : Type} (maxlen : Nat) (ts : List T) : List T :=
  ts.foldl (deque_append maxlen) []

/-! ### Ring-buffer lemmas -/

lemma Buffer.record_buffer_counter {σ α : Type} (buf : Buffer σ α)
    (t : σ × α × ℚ × σ) :
    (buf.record t).buffer_counter = buf.buffer_counter + 1 := rfl

lemma Buffer.record_buffer_capacity {σ α : Type} (buf : Buffer σ α)
    (t : σ × α × ℚ × σ) :
    (buf.record t).buffer_capacity = buf.buffer_capacity := rfl

lemma Buffer.entry_record {σ α : Type} (buf : Buffer σ α)
    (t : σ × α × ℚ × σ) (j : Nat) :
    (buf.record t).entry j
      = if j = buf.buffer_counter % buf.buffer_capacity then t
        else buf.entry j := by
  by_cases h : j = buf.buffer_counter % buf.buffer_capacity
  · simp [Buffer.entry, Buffer.record, h]
  · simp [Buffer.entry, Buffer.record, h]

lemma Buffer.recordAll_buffer_counter {σ α : Type} :
    ∀ (ts : List (σ × α × ℚ × σ)) (buf : Buffer σ α),
      (buf.recordAll ts).buffer_counter = buf.buffer_counter + ts.length := by
  intro ts
  induction ts with
  | nil => intro buf; rfl
  | cons t ts ih =>
    intro buf
    show ((buf.record t).recordAll ts).buffer_counter = _
    rw [ih (buf.record t), Buffer.record_buffer_counter]
    simp
    omega

lemma Buffer.recordAll_buffer_capacity {σ α : Type} :
    ∀ (ts : List (σ × α × ℚ × σ)) (buf : Buffer σ α),
      (buf.recordAll ts).buffer_capacity = buf.buffer_capacity := by
  intro ts
  induction ts with
  | nil => intro buf; rfl
  | cons t ts ih =>
    intro buf
    show ((buf.record t).recordAll ts).buffer_capacity = _
    rw [ih (buf.record t), Buffer.record_buffer_capacity]

lemma add_mod_ne_of_lt (a d C : Nat) (hd0 : 0 < d) (hdC : d < C) :
    (a + d) % C ≠ a % C := by
  intro h
  have hC : 0 < C := lt_trans hd0 hdC
  rw [Nat.add_mod] at h
  have hd : d % C = d := Nat.mod_eq_of_lt hdC
  rw [hd] at h
  have hr : a % C < C := Nat.mod_lt a hC
  by_cases hlt : a % C + d < C
  · rw [Nat.mod_eq_of_lt hlt] at h
    omega
  · have hsub : (a % C + d) % C = a % C + d - C := by
      rw [Nat.mod_eq_sub_mod (by omega)]
      exact Nat.mod_eq_of_lt (by omega)
    rw [hsub] at h
    omega

lemma Buffer.recordAll_entry_preserve {σ α : Type} :
    ∀ (ts : List (σ × α × ℚ × σ)) (buf : Buffer σ α) (j : Nat),
      (∀ m, m < ts.length →
        (buf.buffer_counter + m) % buf.buffer_capacity ≠ j) →
      (buf.recordAll ts).entry j = buf.entry j := by
  intro ts
  induction ts with
  | nil => intro buf j _; rfl
  | cons t ts ih =>
    intro buf j h
    show ((buf.record t).recordAll ts).entry j = buf.entry j
    rw [ih (buf.record t) j ?later]
    case later =>
      intro m hm
      have hcnt : (buf.record t).buffer_counter + m
          = buf.buffer_counter + (m + 1) := by
        rw [Buffer.record_buffer_counter]; omega
      rw [hcnt, Buffer.record_buffer_capacity]
      exact h (m + 1) (by simp; omega)
    rw [Buffer.entry_record]
    have h0 := h 0 (by simp)
    rw [Nat.add_zero] at h0
    rw [if_neg (fun hj => h0 hj.symm)]

lemma Buffer.recordAll_entry_recent {σ α : Type} :
    ∀ (ts : List (σ × α × ℚ × σ)) (buf : Buffer σ α) (j : Nat)
      (hj : j < ts.length),
      ts.length ≤ j + buf.buffer_capacity → 0 < buf.buffer_capacity →
      (buf.recordAll ts).entry ((buf.buffer_counter + j) % buf.buffer_capacity)
        = ts.get ⟨j, hj⟩ := by
  intro ts
  induction ts with
  | nil => intro buf j hj _ _; exact absurd hj (Nat.not_lt_zero j)
  | cons t ts ih =>
    intro buf j hj hrec hC
    cases j with
    | zero =>
      show ((buf.record t).recordAll ts).entry
          ((buf.buffer_counter + 0) % buf.buffer_capacity) = t
      rw [Nat.add_zero]
      rw [Buffer.recordAll_entry_preserve ts (buf.record t) _ ?nolater]
      case nolater =>
        intro m hm
        have hcnt : (buf.record t).buffer_counter + m
            = buf.buffer_counter + (1 + m) := by
          rw [Buffer.record_buffer_counter]; omega
        rw [hcnt, Buffer.record_buffer_capacity]
        apply add_mod_ne_of_lt
        · omega
        · simp only [List.length_cons] at hrec
          omega
      rw [Buffer.entry_record, if_pos rfl]
    | succ j' =>
      have hj' : j' < ts.length := by
        simp only [List.length_cons] at hj; omega
      show ((buf.record t).recordAll ts).entry
          ((buf.buffer_counter + (j' + 1)) % buf.buffer_capacity)
        = ts.get ⟨j', hj'⟩
      have hcnt : buf.buffer_counter + (j' + 1)
          = (buf.record t).buffer_counter + j' := by
        rw [Buffer.record_buffer_counter]; omega
      have hcap : buf.buffer_capacity = (buf.record t).buffer_capacity := rfl
      rw [hcnt, hcap]
      apply ih (buf.record t) j' hj'
      · rw [Buffer.record_buffer_capacity]
        simp only [List.length_cons] at hrec
        omega
      · rw [Buffer.record_buffer_capacity]
        exact hC

lemma DQN.store_all_eq_drop {T : Type} (maxlen : Nat) (ts : List T) :
    DQN.store_all maxlen ts = ts.drop (ts.length - maxlen) := by
  induction ts using List.reverseRecOn with
  | nil => simp [DQN.store_all]
  | append_singleton ts t ih =>
    show (ts ++ [t]).foldl (deque_append maxlen) [] = _
    rw [List.foldl_append]
    show deque_append maxlen (DQN.store_all maxlen ts) t = _
    rw [ih]
    unfold deque_append
    rw [← List.drop_append_of_le_length (by omega)]
    rw [List.drop_drop]
    congr 1
    simp only [List.length_append, List.length_drop, List.length_cons,
      List.length_nil]
    omega

/-- Claim C1: ring invariant of the transition store.  After the `k`
`record` calls in `ts` on a freshly initialized store of capacity `C > 0`
(every call succeeds, so the counter reaches `k` and the sampling range
`record_range` is `min k C`): the transition with insertion index `j` sits
at ring slot `j % C` whenever no later insertion shares that slot
(`k ≤ j + C`); in particular the `k`-th record occupies slot `(k-1) % C`,
and every slot below `min k C` holds the most recent recorded transition
whose insertion index is congruent to it modulo `C`.  The discrete
variant's capped deque likewise holds exactly the `min k C` most recent
transitions, oldest discarded first. -/
theorem C1_ring_invariant {σ α : Type} (C b : Nat) (s0 : σ) (a0 : α)
    (ts : List (σ × α × ℚ × σ)) (ts5 : List (σ × α × ℚ × σ × Bool))
    (hC : 0 < C) :
    ((Buffer.init C b s0 a0).recordAll ts).buffer_counter = ts.length
    ∧ ((Buffer.init C b s0 a0).recordAll ts).record_range = min ts.length C
    ∧ (∀ j (hj : j < ts.length), ts.length ≤ j + C →
        ((Buffer.init C b s0 a0).recordAll ts).entry (j % C) = ts.get ⟨j, hj⟩)
    ∧ (∀ hk : 0 < ts.length,
        ((Buffer.init C b s0 a0).recordAll ts).entry ((ts.length - 1) % C)
          = ts.get ⟨ts.length - 1, by omega⟩)
    ∧ (∀ i, i < min ts.length C → ∃ j, ∃ hj : j < ts.length,
        j % C = i
        ∧ ((Buffer.init C b s0 a0).recordAll ts).entry i = ts.get ⟨j, hj⟩)
    ∧ (DQN.store_all C ts5).length = min ts5.length C
    ∧ DQN.store_all C ts5 = ts5.drop (ts5.length - C) := by
  have hcnt := Buffer.recordAll_buffer_counter ts (Buffer.init C b s0 a0)
  have hslot : ∀ j (hj : j < ts.length), ts.length ≤ j + C →
      ((Buffer.init C b s0 a0).recordAll ts).entry (j % C) = ts.get ⟨j, hj⟩ := by
    intro j hj hrec
    have h := Buffer.recordAll_entry_recent ts (Buffer.init C b s0 a0) j hj
      (by simpa [Buffer.init] using hrec) (by simpa [Buffer.init] using hC)
    simpa [Buffer.init] using h
  refine ⟨by simpa [Buffer.init] using hcnt, ?_, hslot, ?_, ?_, ?_,
    DQN.store_all_eq_drop C ts5⟩
  · unfold Buffer.record_range
    rw [hcnt, Buffer.recordAll_buffer_capacity]
    simp [Buffer.init]
  · intro hk
    exact hslot (ts.length - 1) (by omega) (by omega)
  · intro i hi
    have hiC : i < C := lt_of_lt_of_le hi (min_le_right _ _)
    have hik : i < ts.length := lt_of_lt_of_le hi (min_le_left _ _)
    have hd := Nat.div_add_mod (ts.length - 1 - i) C
    have hrC : (ts.length - 1 - i) % C < C := Nat.mod_lt _ hC
    obtain ⟨m, hm⟩ : ∃ m, m = ts.length - 1 - (ts.length - 1 - i) % C :=
      ⟨_, rfl⟩
    have hmod : m % C = i := by
      have hj : m = i + C * ((ts.length - 1 - i) / C) := by omega
      rw [hj, Nat.add_mul_mod_self_left, Nat.mod_eq_of_lt hiC]
    have hmlt : m < ts.length := by omega
    have h := hslot m hmlt (by omega)
    refine ⟨m, hmlt, hmod, ?_⟩
    rw [hmod] at h
    exact h
  · rw [DQN.store_all_eq_drop]
    rw [List.length_drop]
    omega

/-- Six demonstration transitions `t0..t5` for the continuous store. -/
def demo_ts : List (ℚ × ℚ × ℚ × ℚ) :=
  [(0, 0, 0, 0), (1, 1, 1, 1), (2, 2, 2, 2), (3, 3, 3, 3), (4, 4, 4, 4),
    (5, 5, 5, 5)]

/-- Six demonstration transitions for the discrete (deque) store. -/
def demo_ts5 : List (ℚ × ℚ × ℚ × ℚ × Bool) :=
  [(0, 0, 0, 0, false), (1, 1, 1, 1, false), (2, 2, 2, 2, false),
    (3, 3, 3, 3, true), (4, 4, 4, 4, false), (5, 5, 5, 5, true)]

/-- Witness for C1: the spec's own scenario — a capacity-4 store with 6
inserts reports 4 valid entries, slot `5 mod 4 = 1` holds `t5`, and the
capacity-4 deque holds `{t2, t3, t4, t5}`. -/
theorem C1_ring_invariant_witness :
    0 < 4
    ∧ ((Buffer.init 4 64 (0 : ℚ) (0 : ℚ)).recordAll demo_ts).buffer_counter = 6
    ∧ ((Buffer.init 4 64 (0 : ℚ) (0 : ℚ)).recordAll demo_ts).record_range = 4
    ∧ ((Buffer.init 4 64 (0 : ℚ) (0 : ℚ)).recordAll demo_ts).entry (5 % 4)
        = ((5 : ℚ), (5 : ℚ), (5 : ℚ), (5 : ℚ))
    ∧ DQN.store_all 4 demo_ts5
        = [((2 : ℚ), (2 : ℚ), (2 : ℚ), (2 : ℚ), false),
            ((3 : ℚ), (3 : ℚ), (3 : ℚ), (3 : ℚ), true),
            ((4 : ℚ), (4 : ℚ), (4 : ℚ), (4 : ℚ), false),
            ((5 : ℚ), (5 : ℚ), (5 : ℚ), (5 : ℚ), true)] := by
  have h := C1_ring_invariant 4 64 (0 : ℚ) (0 : ℚ) demo_ts demo_ts5 (by decide)
  refine ⟨by decide, ?_, ?_, ?_, ?_⟩
  · exact h.1
  · exact h.2.1
  · exact h.2.2.1 5 (by decide) (by decide)
  · rw [h.2.2.2.2.2.2]
    rfl

/-! ## Sampling (`Buffer.learn`, pendulum cell 8; `DQN.train`, Breakout cell 6) -/

/-- NumPy `np.random.choice(n, size)`: `size` independent uniform draws from
`[0, n)`, **with replacement**; raises `ValueError` when `n = 0` (modelled
as `none`).  The RNG is modelled by `draws`: position `i` receives
`draws i % n`, so exactly the index lists whose entries lie below `n` are
realizable — the support of with-replacement sampling. -/
def np_random_choice (n size : Nat) (draws : Nat → Nat) : Option (List Nat) :=
  if n = 0 then none
  else some ((List.range size).map (fun i => draws i % n))

/-- First half of `Buffer.learn`:
`record_range = min(self.buffer_counter, self.buffer_capacity)` and
`batch_indices = np.random.choice(record_range, self.batch_size)`. -/
def Buffer.learn_indices {σ α : Type} (buf : Buffer σ α) (draws : Nat → Nat) :
    Option (List Nat) :=
  np_random_choice buf.record_range buf.batch_size draws

/-- Second half of `Buffer.learn`: the four field batches gathered at
`batch_indices` (`self.state_buffer[batch_indices]`, etc.). -/
def Buffer.learn_batches {σ α : Type} (buf : Buffer σ α) (draws : Nat → Nat) :
    Option (List σ × List α × List ℚ × List σ) :=
  match buf.learn_indices draws with
  | none => none
  | some batch_indices =>
      some (batch_indices.map buf.state_buffer,
        batch_indices.map buf.action_buffer,
        batch_indices.map buf.reward_buffer,
        batch_indices.map buf.next_state_buffer)

/-- Support of `np.random.choice(n, size)`: any list of `size` indices
below `n`, duplicates allowed (with replacement). -/
def np_choice_possible (n size : Nat) (ixs : List Nat) : Prop :=
  ixs.length = size ∧ ∀ i ∈ ixs, i < n

/-- Support of Python's `random.sample(population, k)` on a population of
size `n`, as a list of selected positions: `k` *distinct* positions below
`n` — sampling **without** replacement. -/
def random_sample_possible (n k : Nat) (sel : List Nat) : Prop :=
  sel.length = k ∧ sel.Nodup ∧ ∀ i ∈ sel, i < n

/-- Python `random.sample(population, k)` as called at the top of `DQN.train`:
raises `ValueError` (modelled as `none`) when `k` exceeds the population
size, otherwise returns the elements at the selected positions. -/
def random_sample {T : Type} [Inhabited T] (population : List T) (k : Nat)
    (sel : List Nat) : Option (List T) :=
  if k ≤ population.length then
    some (sel.map (fun i => population.getD i default))
  else none

/-! ## DDPG bootstrap target (`Buffer.update`, pendulum cell 8) -/

/-- The target computation of `Buffer.update`:
`target_actions = target_actor(next_state_batch)` and
`y = reward_batch + gamma * target_critic([next_state_batch, target_actions])`,
with the opaque networks as function parameters.  The sampled tuples carry
no `done` flag at all — `Buffer.record` stores only `(s, a, r, s')`. -/
def Buffer.update_y {σ α : Type} (gamma : ℚ) (target_actor : σ → α)
    (target_critic : σ → α → ℚ) (reward_batch : List ℚ)
    (next_state_batch : List σ) : List ℚ :=
  List.zipWith
    (fun r s => r + gamma * target_critic s (target_actor s))
    reward_batch next_state_batch

lemma getD_map_lt {A B : Type} (f : A → B) (l : List A) (m : Nat)
    (hm : m < l.length) (d : B) (d0 : A) :
    (l.map f).getD m d = f (l.getD m d0) := by
  rw [List.getD_eq_getElem _ _ (by simpa using hm), List.getElem_map,
    List.getD_eq_getElem _ _ hm]

/-- Claim C8: sampling from an empty store fails loudly.  Continuous
variant: when `record_range = min(n, C) = 0`, `np.random.choice(0, _)`
raises, so `learn` yields no batch (and when the store is nonempty it
always yields one).  Discrete variant: `random.sample` raises whenever the
requested batch exceeds the number of stored transitions. -/
theorem C8_insufficient_data {σ α T : Type} [Inhabited T] (buf : Buffer σ α)
    (draws : Nat → Nat) (population : List T) (k : Nat) (sel : List Nat) :
    (buf.record_range = 0 →
      buf.learn_indices draws = none ∧ buf.learn_batches draws = none)
    ∧ (0 < buf.record_range → ∃ ixs, buf.learn_indices draws = some ixs)
    ∧ (population.length < k → random_sample population k sel = none) := by
  refine ⟨?_, ?_, ?_⟩
  · intro h
    refine ⟨?_, ?_⟩
    · simp [Buffer.learn_indices, np_random_choice, h]
    · simp [Buffer.learn_batches, Buffer.learn_indices, np_random_choice, h]
  · intro h
    refine ⟨(List.range buf.batch_size).map (fun i => draws i % buf.record_range), ?_⟩
    simp [Buffer.learn_indices, np_random_choice, Nat.pos_iff_ne_zero.mp h]
  · intro h
    simp [random_sample, Nat.not_le.mpr h]

/-- Witness for C8: a freshly initialized capacity-10 store has
`record_range = 0` and its `learn` yields no batch; `random.sample` on 3
stored transitions with batch size 8 fails. -/
theorem C8_insufficient_data_witness :
    (Buffer.init 10 64 (0 : ℚ) (0 : ℚ)).record_range = 0
    ∧ (Buffer.init 10 64 (0 : ℚ) (0 : ℚ)).learn_indices (fun _ => 0) = none
    ∧ ([(1 : ℚ), 2, 3]).length < 8
    ∧ random_sample [(1 : ℚ), 2, 3] 8 [0, 1, 2, 0, 1, 2, 0, 1] = none := by
  have h := C8_insufficient_data (Buffer.init 10 64 (0 : ℚ) (0 : ℚ))
    (fun _ => 0) [(1 : ℚ), 2, 3] 8 [0, 1, 2, 0, 1, 2, 0, 1]
  exact ⟨rfl, (h.1 rfl).1, by decide, h.2.2 (by decide)⟩

/-- Counterexample to claim C2 as stated: the claim asserts that *both*
variants sample indices with replacement.  The index list `[0, 0]` (a
duplicate) is in the with-replacement support `np_choice_possible` used by
the continuous variant for a store of 2 transitions and batch size 2, but
it is *not* in the support of the discrete variant's
`random.sample(replay_buffer, batch_size)`, which only ever returns
distinct elements. -/
theorem C2_counterexample :
    np_choice_possible 2 2 [0, 0] ∧ ¬ random_sample_possible 2 2 [0, 0] := by
  constructor
  · exact ⟨rfl, by decide⟩
  · intro h
    exact absurd h.2.1 (by decide)

/-- Claim C2 (amended): the continuous variant's `learn` draws
`batch_size` indices from `[0, min(n, C))` **with replacement** — its
possible outputs are exactly the lists of `batch_size` indices below
`record_range`, duplicates included — and the returned field batches are
aligned by index: the `m`-th element of each of the four returned arrays
comes from the single stored transition at slot `batch_indices[m]`.  The
discrete variant instead draws `batch_size` *distinct* stored transitions
(sampling **without** replacement), each an entire `(s, a, r, s', done)`
tuple, so its batch is aligned trivially. -/
theorem C2_sampling {σ α : Type} [Inhabited σ] [Inhabited α]
    (buf : Buffer σ α) (draws : Nat → Nat) (ixs : List Nat)
    (n k : Nat) (sel : List Nat) :
    (buf.learn_indices draws = some ixs →
      np_choice_possible buf.record_range buf.batch_size ixs)
    ∧ (np_choice_possible buf.record_range buf.batch_size ixs →
        0 < buf.record_range →
        ∃ draws2 : Nat → Nat, buf.learn_indices draws2 = some ixs)
    ∧ (buf.learn_indices draws = some ixs →
        buf.learn_batches draws
          = some (ixs.map buf.state_buffer, ixs.map buf.action_buffer,
              ixs.map buf.reward_buffer, ixs.map buf.next_state_buffer)
        ∧ ∀ m, m < ixs.length →
            ((ixs.map buf.state_buffer).getD m default,
              (ixs.map buf.action_buffer).getD m default,
              (ixs.map buf.reward_buffer).getD m 0,
              (ixs.map buf.next_state_buffer).getD m default)
              = buf.entry (ixs.getD m 0))
    ∧ (random_sample_possible n k sel →
        sel.Nodup ∧ sel.length = k ∧ ∀ i ∈ sel, i < n)
    ∧ (¬ sel.Nodup → ¬ random_sample_possible n k sel) := by
  refine ⟨?_, ?_, ?_, ?_, ?_⟩
  · intro h
    unfold Buffer.learn_indices np_random_choice at h
    by_cases h0 : buf.record_range = 0
    · simp [h0] at h
    · rw [if_neg h0] at h
      obtain rfl := (Option.some_injective _ h).symm
      refine ⟨by simp, ?_⟩
      intro i hi
      obtain ⟨j, _, rfl⟩ := List.mem_map.mp hi
      exact Nat.mod_lt _ (by omega)
  · intro hp h0
    refine ⟨fun i => ixs.getD i 0, ?_⟩
    unfold Buffer.learn_indices np_random_choice
    rw [if_neg (by omega)]
    congr 1
    apply List.ext_getElem
    · simp [hp.1]
    · intro i h1 h2
      simp only [List.getElem_map, List.getElem_range]
      rw [List.getD_eq_getElem _ _ (by simpa using h2)]
      exact Nat.mod_eq_of_lt (hp.2 _ (List.getElem_mem _))
  · intro h
    refine ⟨by simp [Buffer.learn_batches, h], ?_⟩
    intro m hm
    rw [getD_map_lt buf.state_buffer ixs m hm default 0,
      getD_map_lt buf.action_buffer ixs m hm default 0,
      getD_map_lt buf.reward_buffer ixs m hm 0 0,
      getD_map_lt buf.next_state_buffer ixs m hm default 0]
    rfl
  · intro h
    exact ⟨h.2.1, h.1, h.2.2⟩
  · intro h hp
    exact h hp.2.1

/-- Witness for the amended C2 on a capacity-2, batch-size-2 store holding
one recorded transition: `record_range = 1`, the duplicated index list
`[0, 0]` is realizable (with replacement), and the resulting batch is
aligned: both positions of every field array come from the single stored
transition. -/
theorem C2_sampling_witness :
    (((Buffer.init 2 2 (0 : ℚ) (0 : ℚ)).record ((7 : ℚ), (8 : ℚ), (9 : ℚ),
        (10 : ℚ))).learn_indices (fun _ => 0) = some [0, 0] →
      np_choice_possible 1 2 [0, 0])
    ∧ (np_choice_possible 1 2 [0, 0]
        ∧ 0 < (((Buffer.init 2 2 (0 : ℚ) (0 : ℚ)).record ((7 : ℚ), (8 : ℚ),
            (9 : ℚ), (10 : ℚ)))).record_range
        ∧ ∃ draws2 : Nat → Nat,
            (((Buffer.init 2 2 (0 : ℚ) (0 : ℚ)).record ((7 : ℚ), (8 : ℚ),
              (9 : ℚ), (10 : ℚ)))).learn_indices draws2 = some [0, 0]) := by
  have h := C2_sampling
    ((Buffer.init 2 2 (0 : ℚ) (0 : ℚ)).record ((7 : ℚ), (8 : ℚ), (9 : ℚ), (10 : ℚ)))
    (fun _ => 0) [0, 0] 2 2 [0, 0]
  refine ⟨?_, ⟨rfl, by decide⟩, by decide, h.2.1 ⟨rfl, by decide⟩ (by decide)⟩
  intro hx
  exact ⟨rfl, by decide⟩

/-- Claim C4: in the continuous (DDPG) learning step, the bootstrap target
for *every* sampled transition is
`y = reward + gamma * target_critic(next_state, target_actor(next_state))`,
with no terminal masking: even under an arbitrary external marking of
transitions as terminal, the marked transitions get exactly the same
bootstrapped target — every transition is treated as having a successor.
(The stored tuples contain no `done` flag for `update` to consult.) -/
theorem C4_ddpg_no_terminal_mask {σ α : Type} [Inhabited σ] (gamma : ℚ)
    (target_actor : σ → α) (target_critic : σ → α → ℚ)
    (reward_batch : List ℚ) (next_state_batch : List σ) :
    (Buffer.update_y gamma target_actor target_critic reward_batch
        next_state_batch).length
      = min reward_batch.length next_state_batch.length
    ∧ (∀ m, m < reward_batch.length → m < next_state_batch.length →
        (Buffer.update_y gamma target_actor target_critic reward_batch
            next_state_batch).getD m 0
          = reward_batch.getD m 0
            + gamma * target_critic (next_state_batch.getD m default)
                (target_actor (next_state_batch.getD m default)))
    ∧ (∀ done : Nat → Bool, ∀ m, m < reward_batch.length →
        m < next_state_batch.length → done m = true →
        (Buffer.update_y gamma target_actor target_critic reward_batch
            next_state_batch).getD m 0
          = reward_batch.getD m 0
            + gamma * target_critic (next_state_batch.getD m default)
                (target_actor (next_state_batch.getD m default))) := by
  have helem : ∀ m, m < reward_batch.length → m < next_state_batch.length →
      (Buffer.update_y gamma target_actor target_critic reward_batch
          next_state_batch).getD m 0
        = reward_batch.getD m 0
          + gamma * target_critic (next_state_batch.getD m default)
              (target_actor (next_state_batch.getD m default)) := by
    intro m h1 h2
    have hb : m < (Buffer.update_y gamma target_actor target_critic
        reward_batch next_state_batch).length := by
      simp only [Buffer.update_y, List.length_zipWith]
      omega
    rw [List.getD_eq_getElem _ _ hb, List.getD_eq_getElem _ _ h1,
      List.getD_eq_getElem _ _ h2]
    exact List.getElem_zipWith
  refine ⟨by simp [Buffer.update_y], helem, ?_⟩
  intro _ m h1 h2 _
  exact helem m h1 h2

/-- Witness for C4: one sampled transition with `reward = 1`,
`next_state = 10`, `gamma = 1/2`, identity target actor and additive
target critic: the target is `1 + (1/2) * (10 + 10) = 11` even though the
transition is marked terminal. -/
theorem C4_ddpg_no_terminal_mask_witness :
    0 < ([(1 : ℚ)]).length
    ∧ 0 < ([(10 : ℚ)]).length
    ∧ (fun _ : Nat => true) 0 = true
    ∧ (Buffer.update_y (1/2) (fun s : ℚ => s) (fun s a : ℚ => s + a)
        [(1 : ℚ)] [(10 : ℚ)]).getD 0 0 = 11 := by
  have h := (C4_ddpg_no_terminal_mask (1/2) (fun s : ℚ => s)
    (fun s a : ℚ => s + a) [(1 : ℚ)] [(10 : ℚ)]).2.2 (fun _ => true) 0
    (by decide) (by decide) rfl
  refine ⟨by decide, by decide, rfl, ?_⟩
  rw [h]
  norm_num [List.getD]

/-- Counterexample to claim C3 as stated: the configured initial noise
value is 0 (`x_initial=None`), yet with the code's own noise parameters
(`sqrt(dt) = 1/10`) and a single one-step first episode whose normal draw
is `z = 1`, the OU state at the start of the second episode is `1/50`, not
the initial value — the training loop of pendulum cell 16 never calls
`ou_noise.reset()` at an episode boundary. -/
theorem C3_counterexample :
    ou_noise_code.x_prev = 0
    ∧ ddpg_noise_at_episode_start (1/10) ou_noise_code [[1]] 1 = 1/50
    ∧ ddpg_noise_at_episode_start (1/10) ou_noise_code [[1]] 1 ≠ 0 := by
  refine ⟨rfl, ?_, ?_⟩
  · show (ddpg_trainer_noise (1/10) ou_noise_code ([[1]].take 1)).x_prev = 1/50
    norm_num [ddpg_trainer_noise, ddpg_episode_noise, OUActionNoise.call,
      ou_noise_code, OUActionNoise.mk_init, OUActionNoise.reset]
  · show (ddpg_trainer_noise (1/10) ou_noise_code ([[1]].take 1)).x_prev ≠ 0
    norm_num [ddpg_trainer_noise, ddpg_episode_noise, OUActionNoise.call,
      ou_noise_code, OUActionNoise.mk_init, OUActionNoise.reset]

/-- Claim C3 (amended): `x_prev` is set to the configured initial value
(the zero vector when none is configured) exactly once, by the `reset()`
call inside the constructor, before the first episode; the training loop
performs no reset at episode boundaries, so every later episode starts
from the OU state left at the end of the previous one — Ornstein-Uhlenbeck
state *does* carry over across episode boundaries. -/
theorem C3_noise_carries_over (mean std_deviation theta dt : ℚ)
    (x_initial : Option ℚ) (sqrt_dt : ℚ) (n0 : OUActionNoise)
    (eps : List (List ℚ)) (ep : List ℚ) :
    (OUActionNoise.mk_init mean std_deviation theta dt x_initial).x_prev
        = x_initial.getD 0
    ∧ ddpg_trainer_noise sqrt_dt n0 (eps ++ [ep])
        = ddpg_episode_noise sqrt_dt (ddpg_trainer_noise sqrt_dt n0 eps) ep
    ∧ ddpg_noise_at_episode_start sqrt_dt n0 (eps ++ [ep]) eps.length
        = (ddpg_trainer_noise sqrt_dt n0 eps).x_prev := by
  refine ⟨?_, ?_, ?_⟩
  · cases x_initial <;> rfl
  · simp [ddpg_trainer_noise, List.foldl_append]
  · unfold ddpg_noise_at_episode_start
    rw [List.take_left]

/-! ## Discrete trainer loop control flow (Breakout cell 12) -/

/-- The statements of the `if done:` block of the Breakout training loop,
in their source order: `print(...)`, `break`,
`episode_rewards.append(Return)`. -/
inductive BreakoutStmt where
  | printReturn : BreakoutStmt
  | breakLoop : BreakoutStmt
  | appendReturn : BreakoutStmt

/-- The `if done:` block, statements in the order they appear in the
source — the `append` sits after the `break`. -/
def if_done_block : List BreakoutStmt :=
  [BreakoutStmt.printReturn, BreakoutStmt.breakLoop, BreakoutStmt.appendReturn]

/-- The part of the trainer-loop state that `episode_rewards` lives in,
plus the break flag of the inner `for t in range(num_timesteps)` loop. -/
structure BreakoutLoopState where
  episode_rewards : List ℚ
  broke : Bool

/-- Effect of one Python statement on the loop state. -/
def execStmt (Return : ℚ) (st : BreakoutLoopState) :
    BreakoutStmt → BreakoutLoopState
  | BreakoutStmt.printReturn => st
  | BreakoutStmt.breakLoop => { st with broke := true }
  | BreakoutStmt.appendReturn =>
      { st with episode_rewards := st.episode_rewards ++ [Return] }

/-- Sequential execution of a statement block: once `break` has run,
the remaining statements of the block are not executed. -/
def execBlock (Return : ℚ) :
    BreakoutLoopState → List BreakoutStmt → BreakoutLoopState
  | st, [] => st
  | st, s :: rest =>
      if st.broke then st else execBlock Return (execStmt Return st s) rest

/-- One inner-loop step's effect on `episode_rewards`/`broke`: when `done`
holds, the `if done:` block runs; no other statement of the step body
touches `episode_rewards`. -/
def runStep (done : Bool) (Return : ℚ) (st : BreakoutLoopState) :
    BreakoutLoopState :=
  if done then execBlock Return st if_done_block else st

/-- The inner `for t in range(num_timesteps)` loop: steps run in order
until one of them breaks. -/
def runSteps (Return : ℚ) : List Bool → BreakoutLoopState → BreakoutLoopState
  | [], st => st
  | d :: ds, st =>
      if st.broke then st else runSteps Return ds (runStep d Return st)

/-- The outer `for i in range(num_episodes)` loop, restricted to its
`episode_rewards` effect: each episode (given its per-step `done` flags
and its `Return`) starts with a fresh inner loop (`broke := false`) while
`episode_rewards` persists; initialized to `[]` before the loop. -/
def run_trainer (episodes : List (List Bool × ℚ)) : List ℚ :=
  episodes.foldl
    (fun rewards ep =>
      (runSteps ep.2 ep.1
        { episode_rewards := rewards, broke := false }).episode_rewards)
    []

lemma execBlock_if_done (Return : ℚ) (st : BreakoutLoopState)
    (h : st.broke = false) :
    execBlock Return st if_done_block = { st with broke := true } := by
  simp [if_done_block, execBlock, execStmt, h]

lemma runStep_rewards (done : Bool) (Return : ℚ) (st : BreakoutLoopState) :
    (runStep done Return st).episode_rewards = st.episode_rewards := by
  unfold runStep
  by_cases hd : done
  · rw [if_pos hd]
    by_cases hb : st.broke
    · simp [execBlock, if_done_block, hb]
    · rw [execBlock_if_done Return st (by simpa using hb)]
  · rw [if_neg hd]

lemma runSteps_rewards (Return : ℚ) :
    ∀ (ds : List Bool) (st : BreakoutLoopState),
      (runSteps Return ds st).episode_rewards = st.episode_rewards := by
  intro ds
  induction ds with
  | nil => intro st; rfl
  | cons d ds ih =>
    intro st
    unfold runSteps
    by_cases hb : st.broke
    · rw [if_pos hb]
    · rw [if_neg hb, ih, runStep_rewards]

/-- Claim C10: in the Breakout trainer, `episode_rewards.append(Return)`
is placed after the `break` that ends the episode and therefore never
executes: every step of the loop preserves `episode_rewards` (even though
the `append` statement itself, were it ever reached, would genuinely
append), so after any run of the trainer `episode_rewards` is still the
empty list. -/
theorem C10_episode_rewards_stays_empty (episodes : List (List Bool × ℚ)) :
    run_trainer episodes = []
    ∧ (∀ (done : Bool) (Return : ℚ) (st : BreakoutLoopState),
        (runStep done Return st).episode_rewards = st.episode_rewards)
    ∧ (∀ (Return : ℚ) (st : BreakoutLoopState),
        (execStmt Return st BreakoutStmt.appendReturn).episode_rewards
          = st.episode_rewards ++ [Return]) := by
  refine ⟨?_, runStep_rewards, fun _ _ => rfl⟩
  unfold run_trainer
  have hfold : ∀ (eps : List (List Bool × ℚ)) (r : List ℚ),
      eps.foldl
        (fun rewards ep =>
          (runSteps ep.2 ep.1
            { episode_rewards := rewards, broke := false }).episode_rewards)
        r = r := by
    intro eps
    induction eps with
    | nil => intro r; rfl
    | cons e eps ih =>
      intro r
      show List.foldl _ ((runSteps e.2 e.1
        { episode_rewards := r, broke := false }).episode_rewards) eps = r
      rw [runSteps_rewards]
      exact ih r
  exact hfold episodes []
